import Mathlib

/-!
Verification of the batch episode-renaming script (rename_episodes.py).

The embedding models Python strings as lists of characters, the filesystem
as the list of currently existing paths, and Python exceptions as an
explicit error type carried in `Except`.  All definitions translate the
source; the sole exceptions are marked `Modelled from the spec:` in their
doc comment (module-level helpers that `main` calls but whose definitions
are not part of the source tree).
-/

namespace RenameEpisodes

/-- Python strings are modelled as lists of characters. -/
abbrev Str := List Char

/-- Exceptions raised by the script.  `indexError` models the `IndexError`
from evaluating `text[-1]` on an empty string in `remove_end_chars`;
`noSeasons` models the `ValueError` from `max([])` when no season folder is
found; the remaining constructors carry the data interpolated into the
corresponding `ValueError` messages. -/
inductive Err where
  | indexError : Err
  | noExtension (filename : Str) : Err
  | noNumbers (folderName : Str) : Err
  | multipleNumbers (folderName : Str) (runs : List Str) : Err
  | emptySeason (path : Str) : Err
  | noSeasons : Err
  | renameFailed (oldPath : Str) : Err
  deriving DecidableEq

deriving instance DecidableEq for Except

/-- The character for a single decimal digit, as produced by Python `str`. -/
def digChar (d : Nat) : Char :=
  if d = 0 then '0' else if d = 1 then '1' else if d = 2 then '2'
  else if d = 3 then '3' else if d = 4 then '4' else if d = 5 then '5'
  else if d = 6 then '6' else if d = 7 then '7' else if d = 8 then '8'
  else '9'

/-- Fuelled worker for `natDigits` (the fuel makes the recursion structural,
so that concrete instances reduce in the kernel). -/
def natDigitsF : Nat → Nat → Str
  | 0, _ => []
  | fuel + 1, n =>
    if n < 10 then [digChar n]
    else natDigitsF fuel (n / 10) ++ [digChar (n % 10)]

/-- Decimal rendering of a natural number, i.e. Python `str(n)` for `n ≥ 0`. -/
def natDigits (n : Nat) : Str := natDigitsF (n + 1) n

/-- Numeric value of one digit character. -/
def digitVal (c : Char) : Nat := c.toNat - 48

/-- Value of a digit string, i.e. Python `int(s)` for a string of digits. -/
def digitsVal (s : Str) : Nat := s.foldl (fun a c => 10 * a + digitVal c) 0

/-- Number of digits of `n` when printed, i.e. Python `len(str(n))`. -/
def numDigits (n : Nat) : Nat := (natDigits n).length

/-- Python `max` over a list of naturals (`0` on the empty list; the caller
in `main` guards the empty case separately, as Python `max([])` raises). -/
def listMax (l : List Nat) : Nat := l.foldr max 0

/-- Python format `f"{n:0w}"`: render `n` in decimal, left-padded with
zeros to at least `w` characters. -/
def padNum (w : Nat) (n : Nat) : Str :=
  List.replicate (w - (natDigits n).length) '0' ++ natDigits n

/-- Season padding width, from `main` (lines 305-307): the number of digits
of the largest parsed season number, but never less than 2. -/
def seasonPadWidth (seasonNums : List Nat) : Nat :=
  if 2 < numDigits (listMax seasonNums) then numDigits (listMax seasonNums) else 2

/-- Episode padding width, from `main` (lines 309-311): the number of digits
of the largest per-season episode count, but never less than 2. -/
def episodePadWidth (episodeCounts : List Nat) : Nat :=
  if 2 < numDigits (listMax episodeCounts) then numDigits (listMax episodeCounts) else 2

/-- Python f-string `f"{p}/{n}"` / `os.path.join` as used by the script. -/
def joinSlash (p : Str) (n : Str) : Str := p ++ '/' :: n

/-- Worker for `remove_end_chars`, acting on the reversed string: the source
inspects `text[-1]` (the head of the reversed list), strips it when it equals
`ch` and recurses; reaching the empty string raises `IndexError`. -/
def stripRevLoop : Str → Char → Except Err Str
  | [], _ => .error .indexError
  | c :: cs, ch => if c = ch then stripRevLoop cs ch else .ok (c :: cs)

/-- The source function `remove_end_chars(text, char)` (lines 42-59):
recursively removes the trailing character `ch` until none is left, raising
`IndexError` once `text` becomes empty (the `len(char) != 1` guard is
statically satisfied here because `ch` is a single character). -/
def removeEndChars (text : Str) (ch : Char) : Except Err Str :=
  (stripRevLoop text.reverse ch).map List.reverse

/-- Stated from the spec for the refinement comparison in C3: drop the
maximal trailing run of `ch` from `text` ("any trailing '.' characters
supplied by the user are stripped"). -/
def specStripEnd (text : Str) (ch : Char) : Str :=
  (text.reverse.dropWhile (fun c => c == ch)).reverse

/-- The source function `get_extension(filename)` (lines 26-39): the regex
search for `\.(?P<ext>[^.]+)$` succeeds exactly when the string ends in a
nonempty run of non-dot characters preceded by a dot, and returns that run;
otherwise a `ValueError` is raised. -/
def getExtension (filename : Str) : Except Err Str :=
  if filename.reverse.dropWhile (fun c => !(c == '.')) = [] then
    .error (.noExtension filename)
  else if filename.reverse.takeWhile (fun c => !(c == '.')) = [] then
    .error (.noExtension filename)
  else .ok (filename.reverse.takeWhile (fun c => !(c == '.'))).reverse

/-- Worker for `digitRuns`: scans the string keeping the (reversed) digit run
currently being read in `acc`. -/
def digitRunsAux : Str → Str → List Str
  | [], acc => if acc = [] then [] else [acc.reverse]
  | c :: cs, acc =>
    if c.isDigit then digitRunsAux cs (c :: acc)
    else if acc = [] then digitRunsAux cs []
    else acc.reverse :: digitRunsAux cs []

/-- Python `re.findall(r"\d+", s)` (line 156): the maximal digit runs of
`s`, in order of occurrence. -/
def digitRuns (s : Str) : List Str := digitRunsAux s []

/-- Python `re.search(r"^\D*(?P<season>\d+)\D*$", name)` (line 147): the
anchored pattern matches exactly when the string is non-digits, then a
nonempty digit run, then non-digits; the captured group is that digit run,
returned here as its integer value. -/
def seasonRegexMatch (name : Str) : Option Nat :=
  if (name.dropWhile (fun c => !c.isDigit)).takeWhile Char.isDigit = [] then
    none
  else if ((name.dropWhile (fun c => !c.isDigit)).dropWhile Char.isDigit).any Char.isDigit then
    none
  else
    some (digitsVal ((name.dropWhile (fun c => !c.isDigit)).takeWhile Char.isDigit))

/-- The source method `TVSeason.get_season_number` (lines 134-159), also the
season-number extraction used by `main`: try the anchored regex; on failure
inspect `re.findall(r"\d+", name)` to decide which error to raise. -/
def getSeasonNumber (folderName : Str) : Except Err Nat :=
  match seasonRegexMatch folderName with
  | some n => .ok n
  | none =>
    if 1 < (digitRuns folderName).length then
      .error (.multipleNumbers folderName (digitRuns folderName))
    else
      .error (.noNumbers folderName)

/-- The episode naming scheme of `main` (lines 330, 360-365):
`"{scheme}.S{season}E{episode}.{extension}"` with the season and episode
numbers zero-padded to the given widths.  `scheme` is the already
dot-stripped prefix. -/
def formatName (scheme : Str) (wS wE : Nat) (sNum eNum : Nat) (ext : Str) : Str :=
  scheme ++ '.' :: 'S' :: (padNum wS sNum ++ 'E' :: (padNum wE eNum ++ '.' :: ext))

/-- The new-filename computation of `main` applied to a raw `--scheme`
value: first `remove_end_chars(args.scheme, ".")` (line 287), then the
naming scheme format (lines 360-365). -/
def mainNewName (rawScheme : Str) (wS wE : Nat) (sNum eNum : Nat) (ext : Str) :
    Except Err Str :=
  (removeEndChars rawScheme '.').map (fun p => formatName p wS wE sNum eNum ext)

/-- One entry of `os.listdir` on a season folder.  `isFile` records the
result of `os.path.isfile` on the joined path. -/
structure FileEntry where
  name : Str
  isFile : Bool
  deriving DecidableEq

/-- One entry of `os.listdir` on the show root.  `isDir` records the result
of `os.path.isdir`; `files` is the directory listing inside (ignored when
the entry is not a directory). -/
structure DirEntry where
  name : Str
  isDir : Bool
  files : List FileEntry
  deriving DecidableEq

/-- A season as assembled by `main` (lines 295-302): parsed number, joined
path and the folder's directory listing. -/
structure SeasonDir where
  num : Nat
  path : Str
  entries : List FileEntry
  deriving DecidableEq

/-- A pending rename, the `{"old": ..., "new": ...}` dict of `main`. -/
structure RenameAction where
  old : Str
  new : Str
  deriving DecidableEq

/-- The filesystem is modelled as the list of currently existing paths. -/
abbrev FS := List Str

/-- A single `os.rename(old, new)` call: succeeds when the source path
exists, replacing it by the destination path; otherwise the call raises. -/
def osRename (fs : FS) (a : RenameAction) : Except Err FS :=
  if a.old ∈ fs then .ok (a.new :: fs.erase a.old)
  else .error (.renameFailed a.old)

/-- The rename loop of `main` (lines 381-383): apply the actions in order,
stopping at the first failing call.  Returns the filesystem reached
together with the error of the failing call, if any: renames already done
are kept (there is no rollback in the source). -/
def applyRenames (fs : FS) : List RenameAction → FS × Option Err
  | [] => (fs, none)
  | a :: rest =>
    match osRename fs a with
    | .ok fs2 => applyRenames fs2 rest
    | .error e => (fs, some e)

/-- Left-to-right map over `Except`, stopping at the first error, as a
Python list comprehension raising mid-way does. -/
def mapExcept (f : α → Except Err β) : List α → Except Err (List β)
  | [] => .ok []
  | a :: l =>
    match f a with
    | .error e => .error e
    | .ok b => (mapExcept f l).map (fun bs => b :: bs)

/-- Modelled from the spec: the module-level `get_episodes(path, non_media)`
function that `main` calls (lines 309, 348) is not part of the source tree;
following spec section 4.3, it lists the immediate child files of a season
folder in directory-listing order, excluding ignored names/paths, non-files,
and files whose extracted extension is in the ignored-extension list (a
missing extension raises, as in the in-tree `TVSeason.get_episodes`). -/
def getEpisodeFiles (seasonPath : Str) (ignoreFiles nonMedia : List Str) :
    List FileEntry → Except Err (List Str)
  | [] => .ok []
  | f :: rest =>
    if f.isFile && !ignoreFiles.contains f.name
        && !ignoreFiles.contains (joinSlash seasonPath f.name) then
      match getExtension f.name with
      | .error e => .error e
      | .ok ext =>
        if nonMedia.contains ext then
          getEpisodeFiles seasonPath ignoreFiles nonMedia rest
        else
          (getEpisodeFiles seasonPath ignoreFiles nonMedia rest).map
            (fun ns => f.name :: ns)
    else getEpisodeFiles seasonPath ignoreFiles nonMedia rest

/-- The eligibility test a file entry must pass to become an episode:
a file, not ignored by name or by path, with an extractable extension that
is not in the ignored-extension list. -/
def eligibleFile (seasonPath : Str) (ignoreFiles nonMedia : List Str)
    (f : FileEntry) : Bool :=
  f.isFile && !ignoreFiles.contains f.name
    && !ignoreFiles.contains (joinSlash seasonPath f.name)
    && (match getExtension f.name with
        | .ok ext => !nonMedia.contains ext
        | .error _ => false)

/-- Insert `x` into a list sorted by `key`, after every element whose key
is `≤ key x` (so equal keys keep their original relative order). -/
def insertBy (key : α → Nat) (x : α) : List α → List α
  | [] => [x]
  | t :: ts => if key t ≤ key x then t :: insertBy key x ts else x :: t :: ts

/-- Stable sort by a natural-number key, modelling Python's stable
`sorted(..., key=...)` (insertion sort; extensionally equal to any stable
sort). -/
def sortBy (key : α → Nat) (l : List α) : List α :=
  l.foldl (fun acc x => insertBy key x acc) []

/-- The per-season inner loop of `main` (lines 354-369): number the episode
files `k, k+1, ...`, extract the extension from the joined old path and
build the rename actions. -/
def buildActions (scheme : Str) (wS wE : Nat) (seasonPath : Str)
    (seasonNum : Nat) (k : Nat) : List Str → Except Err (List RenameAction)
  | [] => .ok []
  | n :: rest =>
    match getExtension (joinSlash seasonPath n) with
    | .error e => .error e
    | .ok ext =>
      (buildActions scheme wS wE seasonPath seasonNum (k + 1) rest).map
        (fun acts =>
          { old := joinSlash seasonPath n
            new := joinSlash seasonPath (formatName scheme wS wE seasonNum k ext) }
          :: acts)

/-- The season loop of `main` (lines 342-369): for each season (in sorted
order) list the episode files, raise when the season is empty (lines
349-353), and otherwise compile its rename actions; the per-season action
lists are concatenated in season order. -/
def compileActions (scheme : Str) (wS wE : Nat) (ignoreFiles nonMedia : List Str) :
    List SeasonDir → Except Err (List RenameAction)
  | [] => .ok []
  | sd :: rest =>
    match getEpisodeFiles sd.path ignoreFiles nonMedia sd.entries with
    | .error e => .error e
    | .ok eps =>
      if eps = [] then .error (.emptySeason sd.path)
      else
        match buildActions scheme wS wE sd.path sd.num 1 eps with
        | .error e => .error e
        | .ok acts =>
          (compileActions scheme wS wE ignoreFiles nonMedia rest).map
            (fun more => acts ++ more)

/-- Everything `main` computes before the execution step (lines 284-369):
strip the path and scheme, discover and sort the season folders, compute
the two padding widths, and compile the full list of rename actions.  Any
raised exception aborts with no filesystem interaction. -/
def mainActions (path0 scheme0 : Str) (listing : List DirEntry)
    (ignoreFiles nonMedia : List Str) : Except Err (List RenameAction) :=
  match removeEndChars path0 '/' with
  | .error e => .error e
  | .ok rootPath =>
    match removeEndChars scheme0 '.' with
    | .error e => .error e
    | .ok scheme =>
      let folders := listing.filter
        (fun d => d.isDir && !ignoreFiles.contains d.name)
      match mapExcept (fun d => (getSeasonNumber d.name).map
          (fun n => SeasonDir.mk n (joinSlash rootPath d.name) d.files)) folders with
      | .error e => .error e
      | .ok sds0 =>
        if sortBy SeasonDir.num sds0 = [] then .error .noSeasons
        else
          match mapExcept (fun s => getEpisodeFiles s.path ignoreFiles nonMedia s.entries)
              (sortBy SeasonDir.num sds0) with
          | .error e => .error e
          | .ok epLists =>
            compileActions scheme
              (seasonPadWidth ((sortBy SeasonDir.num sds0).map SeasonDir.num))
              (episodePadWidth (epLists.map List.length))
              ignoreFiles nonMedia (sortBy SeasonDir.num sds0)

/-- Python `response.lower() == "yes"` (line 380). -/
def respYes (r : Str) : Bool := r.map Char.toLower == ['y', 'e', 's']

/-- The whole run of `main` as far as the filesystem is concerned: compute
the rename actions (aborting on any raised exception with the filesystem
untouched), then rename only when the `--execute` flag was given and the
single confirmation line matches `yes` case-insensitively (lines 375-386).
Returns the final filesystem and the run's outcome. -/
def runMain (path0 scheme0 : Str) (listing : List DirEntry)
    (ignoreFiles nonMedia : List Str) (execute : Bool) (response : Str)
    (fs : FS) : FS × Except Err Unit :=
  match mainActions path0 scheme0 listing ignoreFiles nonMedia with
  | .error e => (fs, .error e)
  | .ok actions =>
    if execute then
      if respYes response then
        match applyRenames fs actions with
        | (fs2, none) => (fs2, .ok ())
        | (fs2, some e) => (fs2, .error e)
      else (fs, .ok ())
    else (fs, .ok ())

/-- An episode as built by the in-tree class `TVEpisode` (lines 189-202),
restricted to the fields the ordering claims are about. -/
structure EpisodeRec where
  number : Nat
  oldName : Str
  deriving DecidableEq

/-- A season as built by the in-tree class `TVSeason` (lines 99-118),
restricted to the fields the ordering claims are about. -/
structure SeasonRec where
  number : Nat
  name : Str
  episodes : List EpisodeRec
  deriving DecidableEq

/-- The source method `TVSeason.get_episodes` (lines 161-186): walk the
directory listing in order, keep the eligible files, and give them the
consecutive numbers `k, k+1, ...` (the source starts the counter at 1). -/
def tvGetEpisodes (seasonPath : Str) (ignoreFiles nonMedia : List Str)
    (k : Nat) : List FileEntry → Except Err (List EpisodeRec)
  | [] => .ok []
  | f :: rest =>
    if f.isFile && !ignoreFiles.contains f.name
        && !ignoreFiles.contains (joinSlash seasonPath f.name) then
      match getExtension f.name with
      | .error e => .error e
      | .ok ext =>
        if nonMedia.contains ext then
          tvGetEpisodes seasonPath ignoreFiles nonMedia k rest
        else
          (tvGetEpisodes seasonPath ignoreFiles nonMedia (k + 1) rest).map
            (fun es => EpisodeRec.mk k f.name :: es)
    else tvGetEpisodes seasonPath ignoreFiles nonMedia k rest

/-- The loop body of the source method `TVShow.get_seasons` (lines 87-95)
before sorting: construct a `TVSeason` for every non-ignored subdirectory,
in directory-listing order (each construction parses the season number and
lists the episodes, and may raise). -/
def tvBuildSeasons (showPath : Str) (ignoreFiles nonMedia : List Str) :
    List DirEntry → Except Err (List SeasonRec)
  | [] => .ok []
  | d :: rest =>
    if d.isDir && !ignoreFiles.contains d.name
        && !ignoreFiles.contains (joinSlash showPath d.name) then
      match getSeasonNumber d.name with
      | .error e => .error e
      | .ok n =>
        match tvGetEpisodes (joinSlash showPath d.name) ignoreFiles nonMedia 1 d.files with
        | .error e => .error e
        | .ok eps =>
          (tvBuildSeasons showPath ignoreFiles nonMedia rest).map
            (fun ss => SeasonRec.mk n d.name eps :: ss)
    else tvBuildSeasons showPath ignoreFiles nonMedia rest

/-- The source method `TVShow.get_seasons` (lines 79-96): build the seasons
in directory-listing order, then `sorted(seasons, key=lambda s: s.number)`
(Python's sort is stable). -/
def tvGetSeasons (showPath : Str) (ignoreFiles nonMedia : List Str)
    (listing : List DirEntry) : Except Err (List SeasonRec) :=
  (tvBuildSeasons showPath ignoreFiles nonMedia listing).map (sortBy SeasonRec.number)

/-! Helper lemmas about decimal digit rendering. -/

theorem digChar_isDigit (d : Nat) : (digChar d).isDigit = true := by
  unfold digChar
  repeat' split
  all_goals decide

theorem digitVal_digChar {d : Nat} (h : d < 10) : digitVal (digChar d) = d := by
  interval_cases d <;> decide

theorem digitsVal_append (l : Str) (c : Char) :
    digitsVal (l ++ [c]) = 10 * digitsVal l + digitVal c := by
  simp [digitsVal, List.foldl_append]

theorem digitsVal_natDigitsF {fuel n : Nat} (h : n < fuel) :
    digitsVal (natDigitsF fuel n) = n := by
  induction fuel generalizing n with
  | zero => omega
  | succ fuel ih =>
    rw [natDigitsF]
    by_cases h10 : n < 10
    · rw [if_pos h10]
      show 10 * 0 + digitVal (digChar n) = n
      rw [digitVal_digChar h10]
      omega
    · rw [if_neg h10]
      have hdiv : n / 10 < n := Nat.div_lt_self (by omega) (by omega)
      rw [digitsVal_append, ih (by omega), digitVal_digChar (Nat.mod_lt _ (by omega))]
      omega

theorem digitsVal_natDigits (n : Nat) : digitsVal (natDigits n) = n :=
  digitsVal_natDigitsF (Nat.lt_succ_self n)

theorem natDigitsF_isDigit {fuel n : Nat} : ∀ c ∈ natDigitsF fuel n, c.isDigit = true := by
  induction fuel generalizing n with
  | zero => simp [natDigitsF]
  | succ fuel ih =>
    rw [natDigitsF]
    by_cases h10 : n < 10
    · rw [if_pos h10]
      intro c hc
      rw [List.mem_singleton.1 hc]
      exact digChar_isDigit n
    · rw [if_neg h10]
      intro c hc
      rcases List.mem_append.1 hc with hc | hc
      · exact ih c hc
      · rw [List.mem_singleton.1 hc]
        exact digChar_isDigit _

theorem natDigits_isDigit {n : Nat} : ∀ c ∈ natDigits n, c.isDigit = true :=
  natDigitsF_isDigit

theorem digitsVal_replicate_zero (k : Nat) (l : Str) :
    digitsVal (List.replicate k '0' ++ l) = digitsVal l := by
  induction k with
  | zero => rfl
  | succ k ih =>
    have h0 : digitVal '0' = 0 := by decide
    show List.foldl _ (10 * 0 + digitVal '0') (List.replicate k '0' ++ l) = _
    rw [h0]
    exact ih

theorem digitsVal_padNum (w n : Nat) : digitsVal (padNum w n) = n := by
  unfold padNum
  rw [digitsVal_replicate_zero, digitsVal_natDigits]

theorem padNum_inj {w a b : Nat} (h : padNum w a = padNum w b) : a = b := by
  have h2 := congrArg digitsVal h
  rwa [digitsVal_padNum, digitsVal_padNum] at h2

theorem padNum_isDigit {w n : Nat} : ∀ c ∈ padNum w n, c.isDigit = true := by
  intro c hc
  rcases List.mem_append.1 hc with hc | hc
  · rw [List.eq_of_mem_replicate hc]
    decide
  · exact natDigits_isDigit c hc

/-! Helper lemmas about `takeWhile` and `dropWhile`. -/

theorem takeWhile_append_all {p : α → Bool} {a : List α} (b : List α)
    (h : ∀ c ∈ a, p c = true) : (a ++ b).takeWhile p = a ++ b.takeWhile p := by
  induction a with
  | nil => rfl
  | cons x xs ih =>
    have hx : p x = true := h x (by simp)
    simp only [List.cons_append, List.takeWhile_cons, hx, if_true]
    rw [ih (fun c hc => h c (by simp [hc]))]

theorem dropWhile_append_all {p : α → Bool} {a : List α} (b : List α)
    (h : ∀ c ∈ a, p c = true) : (a ++ b).dropWhile p = b.dropWhile p := by
  induction a with
  | nil => rfl
  | cons x xs ih =>
    have hx : p x = true := h x (by simp)
    simp only [List.cons_append, List.dropWhile_cons, hx, if_true]
    exact ih (fun c hc => h c (by simp [hc]))

theorem dropWhile_head_false {p : α → Bool} : ∀ (l : List α) {c : α} {cs : List α},
    l.dropWhile p = c :: cs → p c = false := by
  intro l
  induction l with
  | nil =>
    intro c cs h
    exact absurd h (by simp)
  | cons x xs ih =>
    intro c cs h
    rw [List.dropWhile_cons] at h
    by_cases hx : p x = true
    · rw [if_pos hx] at h
      exact ih h
    · rw [if_neg hx] at h
      injection h with h1 _
      rw [← h1]
      simpa using hx

theorem dropWhile_nil_all {p : α → Bool} : ∀ (l : List α),
    l.dropWhile p = [] → ∀ x ∈ l, p x = true := by
  intro l
  induction l with
  | nil => intro _ x hx; simp at hx
  | cons y ys ih =>
    intro h x hx
    rw [List.dropWhile_cons] at h
    by_cases hy : p y = true
    · rw [if_pos hy] at h
      rcases List.mem_cons.1 hx with rfl | hx
      · exact hy
      · exact ih h x hx
    · rw [if_neg hy] at h
      exact absurd h (by simp)

theorem dropWhile_all_nil {p : α → Bool} : ∀ (l : List α),
    (∀ x ∈ l, p x = true) → l.dropWhile p = [] := by
  intro l
  induction l with
  | nil => intro _; rfl
  | cons y ys ih =>
    intro h
    rw [List.dropWhile_cons, if_pos (h y (by simp))]
    exact ih (fun x hx => h x (by simp [hx]))

/-! Helper lemmas about `remove_end_chars`. -/

theorem stripRevLoop_ok {ch : Char} : ∀ (r : Str), (∃ c ∈ r, c ≠ ch) →
    stripRevLoop r ch = .ok (r.dropWhile (fun c => c == ch)) := by
  intro r
  induction r with
  | nil =>
    rintro ⟨c, hc, -⟩
    simp at hc
  | cons x xs ih =>
    rintro ⟨c, hc, hne⟩
    rw [stripRevLoop]
    by_cases hx : x = ch
    · subst hx
      rw [if_pos rfl]
      have hxs : ∃ c ∈ xs, c ≠ x := by
        rcases List.mem_cons.1 hc with rfl | h
        · exact absurd rfl hne
        · exact ⟨c, h, hne⟩
      rw [ih hxs]
      simp [List.dropWhile_cons]
    · rw [if_neg hx]
      simp [List.dropWhile_cons, hx]

theorem stripRevLoop_all {ch : Char} : ∀ (r : Str), (∀ c ∈ r, c = ch) →
    stripRevLoop r ch = .error .indexError := by
  intro r
  induction r with
  | nil => intro _; rfl
  | cons x xs ih =>
    intro h
    rw [stripRevLoop, if_pos (h x (by simp))]
    exact ih (fun c hc => h c (by simp [hc]))

theorem removeEndChars_ok {text : Str} {ch : Char} (c : Char) (hc : c ∈ text)
    (hne : c ≠ ch) : removeEndChars text ch = .ok (specStripEnd text ch) := by
  unfold removeEndChars specStripEnd
  rw [stripRevLoop_ok _ ⟨c, List.mem_reverse.2 hc, hne⟩]
  rfl

theorem removeEndChars_error {text : Str} {ch : Char} (h : ∀ c ∈ text, c = ch) :
    removeEndChars text ch = .error .indexError := by
  unfold removeEndChars
  rw [stripRevLoop_all _ (fun c hc => h c (List.mem_reverse.1 hc))]
  rfl

/-! Helper lemmas about `get_extension`. -/

theorem getExtension_ok {pre ext : Str} (hne : ext ≠ [])
    (hnd : ∀ c ∈ ext, c ≠ '.') : getExtension (pre ++ '.' :: ext) = .ok ext := by
  have hall : ∀ c ∈ ext.reverse, (fun c => !(c == '.')) c = true := by
    intro c hc
    simpa using hnd c (List.mem_reverse.1 hc)
  have hrev : (pre ++ '.' :: ext).reverse = ext.reverse ++ '.' :: pre.reverse := by
    simp
  have hdrop : (pre ++ '.' :: ext).reverse.dropWhile (fun c => !(c == '.'))
      = '.' :: pre.reverse := by
    rw [hrev, dropWhile_append_all _ hall]
    rfl
  have htake : (pre ++ '.' :: ext).reverse.takeWhile (fun c => !(c == '.'))
      = ext.reverse := by
    rw [hrev, takeWhile_append_all _ hall]
    simp [List.takeWhile_cons]
  rw [getExtension, hdrop, htake]
  rw [if_neg (by simp), if_neg (by simpa using hne)]
  simp

theorem getExtension_ok_decomp {filename ext : Str}
    (h : getExtension filename = .ok ext) :
    ∃ pre, filename = pre ++ '.' :: ext ∧ ext ≠ [] ∧ ∀ c ∈ ext, c ≠ '.' := by
  rw [getExtension] at h
  by_cases h1 : filename.reverse.dropWhile (fun c => !(c == '.')) = []
  · rw [if_pos h1] at h
    exact absurd h (by simp)
  · rw [if_neg h1] at h
    by_cases h2 : filename.reverse.takeWhile (fun c => !(c == '.')) = []
    · rw [if_pos h2] at h
      exact absurd h (by simp)
    · rw [if_neg h2] at h
      have hext : ext = (filename.reverse.takeWhile (fun c => !(c == '.'))).reverse := by
        injection h with h
        exact h.symm
      obtain ⟨c, cs, hd⟩ : ∃ c cs,
          filename.reverse.dropWhile (fun c => !(c == '.')) = c :: cs := by
        rcases hx : filename.reverse.dropWhile (fun c => !(c == '.')) with - | ⟨c, cs⟩
        · exact absurd hx h1
        · exact ⟨c, cs, rfl⟩
      have hc : c = '.' := by
        have := dropWhile_head_false _ hd
        simpa using this
      subst hc
      refine ⟨cs.reverse, ?_, ?_, ?_⟩
      · have hsplit : filename.reverse
            = filename.reverse.takeWhile (fun c => !(c == '.')) ++ '.' :: cs := by
          rw [← hd, List.takeWhile_append_dropWhile]
        have := congrArg List.reverse hsplit
        rw [List.reverse_reverse] at this
        rw [this, hext]
        simp
      · rw [hext]
        simpa using h2
      · intro c hc
        rw [hext] at hc
        have := List.mem_takeWhile_imp (List.mem_reverse.1 hc)
        simpa using this

theorem getExtension_no_dot {filename : Str} (h : '.' ∉ filename) :
    getExtension filename = .error (.noExtension filename) := by
  rw [getExtension, if_pos]
  apply dropWhile_all_nil
  intro x hx
  have : x ≠ '.' := by
    intro heq
    exact h (heq ▸ List.mem_reverse.1 hx)
  simpa using this

theorem getExtension_ends_dot (pre : Str) :
    getExtension (pre ++ ['.']) = .error (.noExtension (pre ++ ['.'])) := by
  have hrev : (pre ++ ['.']).reverse = '.' :: pre.reverse := by simp
  rw [getExtension, hrev]
  by_cases h1 : List.dropWhile (fun c => !(c == '.')) ('.' :: pre.reverse) = []
  · rw [if_pos h1]
  · rw [if_neg h1, if_pos]
    simp [List.takeWhile_cons]

/-! Helper lemmas about `re.findall` digit runs and the season regex. -/

theorem digitRunsAux_ne_nil : ∀ (s : Str) (acc : Str), acc ≠ [] →
    digitRunsAux s acc ≠ [] := by
  intro s
  induction s with
  | nil =>
    intro acc h
    rw [digitRunsAux, if_neg h]
    simp
  | cons c cs ih =>
    intro acc h
    rw [digitRunsAux]
    by_cases hc : c.isDigit = true
    · rw [if_pos hc]
      exact ih _ (by simp)
    · rw [if_neg hc, if_neg h]
      simp

theorem digitRunsAux_all_nondigit : ∀ (s : Str),
    (∀ c ∈ s, c.isDigit = false) → digitRunsAux s [] = [] := by
  intro s
  induction s with
  | nil => intro _; rfl
  | cons c cs ih =>
    intro h
    rw [digitRunsAux]
    have hc : c.isDigit = false := h c (by simp)
    rw [if_neg (by simp [hc]), if_pos rfl]
    exact ih (fun x hx => h x (by simp [hx]))

theorem digitRuns_any_digit : ∀ (s : Str), s.any Char.isDigit = true →
    digitRuns s ≠ [] := by
  intro s
  induction s with
  | nil => simp
  | cons c cs ih =>
    intro h
    unfold digitRuns
    rw [digitRunsAux]
    by_cases hc : c.isDigit = true
    · rw [if_pos hc]
      exact digitRunsAux_ne_nil cs [c] (by simp)
    · rw [if_neg hc, if_pos rfl]
      exact ih (by simpa [List.any_cons, hc] using h)

theorem digitRuns_ne_nil_any (s : Str) (h : digitRuns s ≠ []) :
    s.any Char.isDigit = true := by
  by_contra hany
  apply h
  apply digitRunsAux_all_nondigit
  intro c hc
  by_contra hcd
  exact hany (List.any_eq_true.2 ⟨c, hc, by simpa using hcd⟩)

theorem digitRunsAux_digits_first : ∀ (ds : Str) (tl acc : Str),
    (∀ c ∈ ds, c.isDigit = true) →
    digitRunsAux (ds ++ tl) acc = digitRunsAux tl (ds.reverse ++ acc) := by
  intro ds
  induction ds with
  | nil => intro tl acc _; simp
  | cons c cs ih =>
    intro tl acc h
    rw [List.cons_append, digitRunsAux, if_pos (h c (by simp))]
    rw [ih tl (c :: acc) (fun x hx => h x (by simp [hx]))]
    congr 1
    simp

theorem digitRuns_skip_nondigit : ∀ (s : Str),
    digitRuns (s.dropWhile (fun c => !c.isDigit)) = digitRuns s := by
  intro s
  induction s with
  | nil => rfl
  | cons c cs ih =>
    rw [List.dropWhile_cons]
    by_cases hc : c.isDigit = true
    · rw [if_neg (by simp [hc])]
    · rw [if_pos (by simp [hc]), ih]
      show digitRuns cs = digitRuns (c :: cs)
      unfold digitRuns
      conv_rhs => rw [digitRunsAux]
      rw [if_neg (by simp [hc]), if_pos rfl]

theorem digitRuns_eq_cons (name : Str)
    (hne : name.dropWhile (fun c => !c.isDigit) ≠ []) :
    digitRuns name
      = (name.dropWhile (fun c => !c.isDigit)).takeWhile Char.isDigit
        :: digitRuns ((name.dropWhile (fun c => !c.isDigit)).dropWhile Char.isDigit)
    ∧ (name.dropWhile (fun c => !c.isDigit)).takeWhile Char.isDigit ≠ [] := by
  obtain ⟨c, cs, hc⟩ : ∃ c cs, name.dropWhile (fun c => !c.isDigit) = c :: cs := by
    rcases hx : name.dropWhile (fun c => !c.isDigit) with - | ⟨c, cs⟩
    · exact absurd hx hne
    · exact ⟨c, cs, hx⟩
  have hcd : c.isDigit = true := by
    have := dropWhile_head_false _ hc
    simpa using this
  have htne : (name.dropWhile (fun c => !c.isDigit)).takeWhile Char.isDigit ≠ [] := by
    rw [hc, List.takeWhile_cons, if_pos hcd]
    simp
  refine ⟨?_, htne⟩
  rw [← digitRuns_skip_nondigit name]
  conv_lhs =>
    rw [show name.dropWhile (fun c => !c.isDigit)
          = (name.dropWhile (fun c => !c.isDigit)).takeWhile Char.isDigit
            ++ (name.dropWhile (fun c => !c.isDigit)).dropWhile Char.isDigit
        from (List.takeWhile_append_dropWhile _ _).symm]
  show digitRunsAux _ [] = _
  rw [digitRunsAux_digits_first _ _ [] (fun x hx => List.mem_takeWhile_imp hx)]
  rcases hd : (name.dropWhile (fun c => !c.isDigit)).dropWhile Char.isDigit
      with - | ⟨c2, tl2⟩
  · rw [hd, digitRunsAux]
    rw [if_neg (by simpa [List.reverse_eq_nil_iff] using htne)]
    simp [digitRuns, digitRunsAux]
  · have hc2 : c2.isDigit = false := dropWhile_head_false _ hd
    rw [hd, digitRunsAux, if_neg (by simp [hc2])]
    rw [if_neg (by simpa [List.reverse_eq_nil_iff] using htne)]
    show _ :: digitRunsAux tl2 [] = _ :: digitRuns (c2 :: tl2)
    have h2 : digitRuns (c2 :: tl2) = digitRunsAux tl2 [] := by
      unfold digitRuns
      conv_lhs => rw [digitRunsAux]
      rw [if_neg (by simp [hc2]), if_pos rfl]
    rw [h2]
    congr 1
    simp

theorem seasonRegex_of_nil {name : Str} (h : digitRuns name = []) :
    seasonRegexMatch name = none := by
  by_cases hne : name.dropWhile (fun c => !c.isDigit) = []
  · rw [seasonRegexMatch, if_pos (by rw [hne]; rfl)]
  · exact absurd h (by rw [(digitRuns_eq_cons name hne).1]; simp)

theorem seasonRegex_of_single {name ds : Str} (h : digitRuns name = [ds]) :
    seasonRegexMatch name = some (digitsVal ds) := by
  by_cases hne : name.dropWhile (fun c => !c.isDigit) = []
  · rw [← digitRuns_skip_nondigit name, hne] at h
    exact absurd h.symm (by simp [digitRuns, digitRunsAux])
  · obtain ⟨hcons, htne⟩ := digitRuns_eq_cons name hne
    rw [h] at hcons
    injection hcons with h1 h2
    rw [seasonRegexMatch, if_neg htne, if_neg, h1]
    intro hany
    exact digitRuns_any_digit _ hany h2.symm

theorem seasonRegex_of_multi {name : Str} (h : 2 ≤ (digitRuns name).length) :
    seasonRegexMatch name = none := by
  by_cases hne : name.dropWhile (fun c => !c.isDigit) = []
  · rw [← digitRuns_skip_nondigit name, hne] at h
    simp [digitRuns, digitRunsAux] at h
  · obtain ⟨hcons, htne⟩ := digitRuns_eq_cons name hne
    have htail : digitRuns ((name.dropWhile (fun c => !c.isDigit)).dropWhile Char.isDigit)
        ≠ [] := by
      intro hnil
      rw [hcons, hnil] at h
      simp at h
    rw [seasonRegexMatch, if_neg htne, if_pos]
    exact digitRuns_ne_nil_any _ htail

/-! Helper lemmas about `max` over a list and the padding widths. -/

theorem listMax_mem : ∀ {l : List Nat}, l ≠ [] → listMax l ∈ l := by
  intro l
  induction l with
  | nil => intro h; exact absurd rfl h
  | cons x xs ih =>
    intro _
    rcases eq_or_ne xs [] with rfl | hxs
    · show max x (listMax []) ∈ [x]
      simp [listMax]
    · rcases max_choice x (listMax xs) with h | h
      · show max x (listMax xs) ∈ x :: xs
        rw [h]
        simp
      · show max x (listMax xs) ∈ x :: xs
        rw [h]
        exact List.mem_cons_of_mem _ (ih hxs)

theorem le_listMax : ∀ {l : List Nat} {x : Nat}, x ∈ l → x ≤ listMax l := by
  intro l
  induction l with
  | nil => intro x hx; simp at hx
  | cons y ys ih =>
    intro x hx
    rcases List.mem_cons.1 hx with rfl | hx
    · exact le_max_left _ _
    · exact le_trans (ih hx) (le_max_right _ _)

theorem seasonPadWidth_eq (l : List Nat) :
    seasonPadWidth l = max 2 (numDigits (listMax l)) := by
  unfold seasonPadWidth
  rcases le_or_lt (numDigits (listMax l)) 2 with h | h
  · rw [if_neg (by omega), max_eq_left h]
  · rw [if_pos h, max_eq_right (le_of_lt h)]

theorem episodePadWidth_eq (l : List Nat) :
    episodePadWidth l = max 2 (numDigits (listMax l)) := by
  unfold episodePadWidth
  rcases le_or_lt (numDigits (listMax l)) 2 with h | h
  · rw [if_neg (by omega), max_eq_left h]
  · rw [if_pos h, max_eq_right (le_of_lt h)]

/-! Helper lemmas about the stable sort. -/

theorem mem_insertBy (key : α → Nat) (x : α) : ∀ {l : List α} {y : α},
    y ∈ insertBy key x l ↔ y = x ∨ y ∈ l := by
  intro l
  induction l with
  | nil => intro y; simp [insertBy]
  | cons t ts ih =>
    intro y
    rw [insertBy]
    by_cases h : key t ≤ key x
    · rw [if_pos h]
      simp only [List.mem_cons, ih]
      tauto
    · rw [if_neg h]
      simp only [List.mem_cons]

theorem sorted_insertBy {key : α → Nat} {x : α} : ∀ {l : List α},
    l.Pairwise (fun a b => key a ≤ key b) →
    (insertBy key x l).Pairwise (fun a b => key a ≤ key b) := by
  intro l
  induction l with
  | nil => intro _; simp [insertBy]
  | cons t ts ih =>
    intro h
    rw [List.pairwise_cons] at h
    obtain ⟨ht, hts⟩ := h
    rw [insertBy]
    by_cases hle : key t ≤ key x
    · rw [if_pos hle]
      rw [List.pairwise_cons]
      refine ⟨?_, ih hts⟩
      intro y hy
      rcases (mem_insertBy key x).1 hy with rfl | hy
      · exact hle
      · exact ht y hy
    · rw [if_neg hle]
      rw [List.pairwise_cons]
      refine ⟨?_, List.pairwise_cons.2 ⟨ht, hts⟩⟩
      intro y hy
      rcases List.mem_cons.1 hy with rfl | hy
      · omega
      · exact le_trans (by omega) (ht y hy)

theorem filter_insertBy {key : α → Nat} {x : α} (k : Nat) : ∀ {l : List α},
    l.Pairwise (fun a b => key a ≤ key b) →
    (insertBy key x l).filter (fun a => key a == k)
      = l.filter (fun a => key a == k)
        ++ if key x == k then [x] else [] := by
  intro l
  induction l with
  | nil =>
    intro _
    show List.filter _ [x] = [] ++ _
    rw [List.filter_cons]
    by_cases hxk : (key x == k) = true
    · rw [if_pos hxk, if_pos hxk]
      rfl
    · rw [if_neg hxk, if_neg hxk]
      rfl
  | cons t ts ih =>
    intro h
    rw [List.pairwise_cons] at h
    obtain ⟨ht, hts⟩ := h
    rw [insertBy]
    by_cases hle : key t ≤ key x
    · rw [if_pos hle, List.filter_cons, List.filter_cons]
      by_cases htk : (key t == k) = true
      · rw [if_pos htk, if_pos htk, ih hts]
        simp
      · rw [if_neg htk, if_neg htk]
        exact ih hts
    · rw [if_neg hle, List.filter_cons]
      by_cases hxk : (key x == k) = true
      · rw [if_pos hxk]
        have hnil : (t :: ts).filter (fun a => key a == k) = [] := by
          rw [List.filter_eq_nil_iff]
          intro a ha
          have hka : key t ≤ key a := by
            rcases List.mem_cons.1 ha with rfl | ha
            · exact le_refl _
            · exact ht a ha
          have hxkk : key x = k := by simpa using hxk
          simp only [beq_iff_eq]
          omega
        rw [hnil, if_pos hxk]
        rfl
      · rw [if_neg hxk, if_neg hxk]
        simp

theorem sortBy_invariant (key : α → Nat) (k : Nat) : ∀ (l acc : List α),
    acc.Pairwise (fun a b => key a ≤ key b) →
    (l.foldl (fun acc x => insertBy key x acc) acc).Pairwise
      (fun a b => key a ≤ key b)
    ∧ (l.foldl (fun acc x => insertBy key x acc) acc).filter (fun a => key a == k)
        = acc.filter (fun a => key a == k) ++ l.filter (fun a => key a == k) := by
  intro l
  induction l with
  | nil =>
    intro acc h
    exact ⟨h, by simp⟩
  | cons x xs ih =>
    intro acc h
    rw [List.foldl_cons]
    obtain ⟨hs, hf⟩ := ih (insertBy key x acc) (sorted_insertBy h)
    refine ⟨hs, ?_⟩
    rw [hf, filter_insertBy k h, List.filter_cons]
    by_cases hxk : (key x == k) = true
    · rw [if_pos hxk, if_pos hxk]
      simp
    · rw [if_neg hxk, if_neg hxk]
      simp

theorem sortBy_sorted {key : α → Nat} (l : List α) :
    (sortBy key l).Pairwise (fun a b => key a ≤ key b) :=
  (sortBy_invariant key 0 l [] (by simp)).1

theorem sortBy_filter (key : α → Nat) (k : Nat) (l : List α) :
    (sortBy key l).filter (fun a => key a == k) = l.filter (fun a => key a == k) := by
  have h := (sortBy_invariant key k l [] (by simp)).2
  simpa [sortBy] using h

theorem mem_sortBy (key : α → Nat) {x : α} {l : List α} :
    x ∈ sortBy key l ↔ x ∈ l := by
  suffices h : ∀ (l acc : List α),
      x ∈ l.foldl (fun acc y => insertBy key y acc) acc ↔ x ∈ acc ∨ x ∈ l by
    simpa [sortBy] using h l []
  intro l
  induction l with
  | nil => intro acc; simp
  | cons y ys ih =>
    intro acc
    rw [List.foldl_cons, ih]
    simp only [mem_insertBy, List.mem_cons]
    tauto

theorem sortBy_ne_nil {key : α → Nat} {l : List α} (h : l ≠ []) :
    sortBy key l ≠ [] := by
  obtain ⟨x, hx⟩ : ∃ x, x ∈ l := by
    rcases l with - | ⟨x, xs⟩
    · exact absurd rfl h
    · exact ⟨x, by simp⟩
  intro hnil
  have hmem := (mem_sortBy key).2 hx
  rw [hnil] at hmem
  simp at hmem

/-! Helper lemmas about the action pipeline of `main`. -/

theorem mapExcept_ok_of_all {f : α → Except Err β} : ∀ {l : List α},
    (∀ a ∈ l, ∃ b, f a = .ok b) → ∃ bs, mapExcept f l = .ok bs := by
  intro l
  induction l with
  | nil => intro _; exact ⟨[], rfl⟩
  | cons a rest ih =>
    intro h
    obtain ⟨b, hb⟩ := h a (by simp)
    obtain ⟨bs, hbs⟩ := ih (fun x hx => h x (by simp [hx]))
    refine ⟨b :: bs, ?_⟩
    rw [mapExcept]
    simp only [hb, hbs, Except.map]

theorem getEpisodeFiles_ext_ok {seasonPath : Str} {ig nm : List Str} :
    ∀ {entries : List FileEntry} {l : List Str},
    getEpisodeFiles seasonPath ig nm entries = .ok l →
    ∀ n ∈ l, ∃ ext, getExtension n = .ok ext := by
  intro entries
  induction entries with
  | nil =>
    intro l h n hn
    rw [getEpisodeFiles] at h
    injection h with h
    rw [← h] at hn
    simp at hn
  | cons f rest ih =>
    intro l h n hn
    rw [getEpisodeFiles] at h
    by_cases h1 : (f.isFile && !ig.contains f.name
        && !ig.contains (joinSlash seasonPath f.name)) = true
    · rw [if_pos h1] at h
      rcases hx : getExtension f.name with e | ext
      · simp only [hx] at h
        exact Except.noConfusion h
      · simp only [hx] at h
        by_cases h2 : nm.contains ext = true
        · rw [if_pos h2] at h
          exact ih h n hn
        · rw [if_neg h2] at h
          rcases hrec : getEpisodeFiles seasonPath ig nm rest with e | ns
          · simp only [hrec, Except.map] at h
            exact Except.noConfusion h
          · simp only [hrec, Except.map] at h
            injection h with h
            rw [← h] at hn
            rcases List.mem_cons.1 hn with rfl | hn
            · exact ⟨ext, hx⟩
            · exact ih hrec n hn
    · rw [if_neg h1] at h
      exact ih h n hn

theorem eligibleFile_unfold (seasonPath : Str) (ig nm : List Str) (f : FileEntry) :
    eligibleFile seasonPath ig nm f
      = ((f.isFile && !ig.contains f.name
            && !ig.contains (joinSlash seasonPath f.name))
          && (match getExtension f.name with
              | .ok ext => !nm.contains ext
              | .error _ => false)) := rfl

theorem getEpisodeFiles_names {seasonPath : Str} {ig nm : List Str} :
    ∀ {entries : List FileEntry} {l : List Str},
    getEpisodeFiles seasonPath ig nm entries = .ok l →
    l = (entries.filter (eligibleFile seasonPath ig nm)).map FileEntry.name := by
  intro entries
  induction entries with
  | nil =>
    intro l h
    injection h with h
    exact h.symm
  | cons f rest ih =>
    intro l h
    rw [getEpisodeFiles] at h
    rw [List.filter_cons]
    by_cases h1 : (f.isFile && !ig.contains f.name
        && !ig.contains (joinSlash seasonPath f.name)) = true
    · rw [if_pos h1] at h
      rcases hx : getExtension f.name with e | ext
      · simp only [hx] at h
        exact Except.noConfusion h
      · simp only [hx] at h
        have he : eligibleFile seasonPath ig nm f = !nm.contains ext := by
          rw [eligibleFile_unfold, h1, hx]
          simp
        by_cases h2 : nm.contains ext = true
        · rw [if_pos h2] at h
          rw [if_neg (by simp [he]; simpa using h2)]
          exact ih h
        · rw [if_neg h2] at h
          rcases hrec : getEpisodeFiles seasonPath ig nm rest with e | ns
          · simp only [hrec, Except.map] at h
            exact Except.noConfusion h
          · simp only [hrec, Except.map] at h
            injection h with h
            rw [if_pos (by simp [he]; simpa using h2)]
            rw [← h, ih hrec]
            rfl
    · rw [if_neg h1] at h
      have h1f : (f.isFile && !ig.contains f.name
          && !ig.contains (joinSlash seasonPath f.name)) = false := by
        simpa using h1
      have he : eligibleFile seasonPath ig nm f = false := by
        rw [eligibleFile_unfold, h1f]
        simp
      rw [if_neg (by simp [he])]
      exact ih h

theorem buildActions_ok (scheme : Str) (wS wE : Nat) (seasonPath : Str)
    (seasonNum : Nat) : ∀ {eps : List Str} (k : Nat),
    (∀ n ∈ eps, ∃ ext, getExtension n = .ok ext) →
    ∃ acts, buildActions scheme wS wE seasonPath seasonNum k eps = .ok acts := by
  intro eps
  induction eps with
  | nil => intro k _; exact ⟨[], rfl⟩
  | cons n rest ih =>
    intro k h
    obtain ⟨ext, hext⟩ := h n (by simp)
    obtain ⟨pre, hpre, hne, hnd⟩ := getExtension_ok_decomp hext
    have hpath : getExtension (joinSlash seasonPath n) = .ok ext := by
      rw [hpre]
      show getExtension (seasonPath ++ '/' :: (pre ++ '.' :: ext)) = .ok ext
      rw [show seasonPath ++ '/' :: (pre ++ '.' :: ext)
            = (seasonPath ++ '/' :: pre) ++ '.' :: ext by simp]
      exact getExtension_ok hne hnd
    obtain ⟨acts, hacts⟩ := ih (k + 1) (fun m hm => h m (by simp [hm]))
    refine ⟨RenameAction.mk (joinSlash seasonPath n)
        (joinSlash seasonPath (formatName scheme wS wE seasonNum k ext)) :: acts, ?_⟩
    rw [buildActions]
    simp only [hpath, hacts, Except.map]

theorem compileActions_empty {scheme : Str} {wS wE : Nat} {ig nm : List Str} :
    ∀ (sds : List SeasonDir),
    (∀ sd ∈ sds, ∃ l, getEpisodeFiles sd.path ig nm sd.entries = .ok l) →
    (∃ sd ∈ sds, getEpisodeFiles sd.path ig nm sd.entries = .ok []) →
    ∃ p, compileActions scheme wS wE ig nm sds = .error (.emptySeason p) := by
  intro sds
  induction sds with
  | nil =>
    rintro _ ⟨sd, hsd, -⟩
    simp at hsd
  | cons sd rest ih =>
    intro hall hemp
    obtain ⟨l, hl⟩ := hall sd (by simp)
    rw [compileActions]
    rcases l with - | ⟨n, ns⟩
    · refine ⟨sd.path, ?_⟩
      simp [hl]
    · have hrest : ∃ sd2 ∈ rest, getEpisodeFiles sd2.path ig nm sd2.entries = .ok [] := by
        obtain ⟨sd2, hsd2, h2⟩ := hemp
        rcases List.mem_cons.1 hsd2 with rfl | hsd2
        · rw [hl] at h2
          injection h2 with h2
          exact absurd h2 (by simp)
        · exact ⟨sd2, hsd2, h2⟩
      obtain ⟨acts, hacts⟩ :=
        buildActions_ok scheme wS wE sd.path sd.num 1 (getEpisodeFiles_ext_ok hl)
      obtain ⟨p, hp⟩ := ih (fun s hs => hall s (by simp [hs])) hrest
      refine ⟨p, ?_⟩
      simp only [hl]
      rw [if_neg (by simp : ¬(n :: ns : List Str) = [])]
      simp only [hp, Except.map]
      simp only [hacts]

theorem mainActions_eq_compile {path0 scheme0 rootPath scheme : Str}
    {listing : List DirEntry} {ig nm : List Str} {sds0 : List SeasonDir}
    {epLists : List (List Str)}
    (h1 : removeEndChars path0 '/' = .ok rootPath)
    (h2 : removeEndChars scheme0 '.' = .ok scheme)
    (h3 : mapExcept (fun d => (getSeasonNumber d.name).map
        (fun n => SeasonDir.mk n (joinSlash rootPath d.name) d.files))
        (listing.filter (fun d => d.isDir && !ig.contains d.name)) = .ok sds0)
    (hne : sds0 ≠ [])
    (h4 : mapExcept (fun s => getEpisodeFiles s.path ig nm s.entries)
        (sortBy SeasonDir.num sds0) = .ok epLists) :
    mainActions path0 scheme0 listing ig nm
      = compileActions scheme
          (seasonPadWidth ((sortBy SeasonDir.num sds0).map SeasonDir.num))
          (episodePadWidth (epLists.map List.length))
          ig nm (sortBy SeasonDir.num sds0) := by
  rw [mainActions]
  simp only [h1, h2, h3]
  rw [if_neg (sortBy_ne_nil hne)]
  simp only [h4]

theorem runMain_error {path0 scheme0 : Str} {listing : List DirEntry}
    {ig nm : List Str} {execute : Bool} {response : Str} {fs : FS} {e : Err}
    (h : mainActions path0 scheme0 listing ig nm = .error e) :
    runMain path0 scheme0 listing ig nm execute response fs = (fs, .error e) := by
  rw [runMain]
  simp only [h]

/-! Helper lemmas about the class-based discovery (`TVShow` / `TVSeason`). -/

theorem tvGetEpisodes_names {seasonPath : Str} {ig nm : List Str} :
    ∀ {entries : List FileEntry} {k : Nat} {es : List EpisodeRec},
    tvGetEpisodes seasonPath ig nm k entries = .ok es →
    es.map EpisodeRec.oldName
      = (entries.filter (eligibleFile seasonPath ig nm)).map FileEntry.name := by
  intro entries
  induction entries with
  | nil =>
    intro k es h
    injection h with h
    rw [← h]
    rfl
  | cons f rest ih =>
    intro k es h
    rw [tvGetEpisodes] at h
    rw [List.filter_cons]
    by_cases h1 : (f.isFile && !ig.contains f.name
        && !ig.contains (joinSlash seasonPath f.name)) = true
    · rw [if_pos h1] at h
      rcases hx : getExtension f.name with e | ext
      · simp only [hx] at h
        exact Except.noConfusion h
      · simp only [hx] at h
        have he : eligibleFile seasonPath ig nm f = !nm.contains ext := by
          rw [eligibleFile_unfold, h1, hx]
          simp
        by_cases h2 : nm.contains ext = true
        · rw [if_pos h2] at h
          rw [if_neg (by simp [he]; simpa using h2)]
          exact ih h
        · rw [if_neg h2] at h
          rcases hrec : tvGetEpisodes seasonPath ig nm (k + 1) rest with e | es2
          · simp only [hrec, Except.map] at h
            exact Except.noConfusion h
          · simp only [hrec, Except.map] at h
            injection h with h
            rw [if_pos (by simp [he]; simpa using h2)]
            rw [← h, List.map_cons, ih hrec]
            rfl
    · rw [if_neg h1] at h
      have h1f : (f.isFile && !ig.contains f.name
          && !ig.contains (joinSlash seasonPath f.name)) = false := by
        simpa using h1
      have he : eligibleFile seasonPath ig nm f = false := by
        rw [eligibleFile_unfold, h1f]
        simp
      rw [if_neg (by simp [he])]
      exact ih h

theorem tvGetEpisodes_numbers {seasonPath : Str} {ig nm : List Str} :
    ∀ {entries : List FileEntry} {k : Nat} {es : List EpisodeRec},
    tvGetEpisodes seasonPath ig nm k entries = .ok es →
    es.map EpisodeRec.number = List.range' k es.length := by
  intro entries
  induction entries with
  | nil =>
    intro k es h
    injection h with h
    rw [← h]
    rfl
  | cons f rest ih =>
    intro k es h
    rw [tvGetEpisodes] at h
    by_cases h1 : (f.isFile && !ig.contains f.name
        && !ig.contains (joinSlash seasonPath f.name)) = true
    · rw [if_pos h1] at h
      rcases hx : getExtension f.name with e | ext
      · simp only [hx] at h
        exact Except.noConfusion h
      · simp only [hx] at h
        by_cases h2 : nm.contains ext = true
        · rw [if_pos h2] at h
          exact ih h
        · rw [if_neg h2] at h
          rcases hrec : tvGetEpisodes seasonPath ig nm (k + 1) rest with e | es2
          · simp only [hrec, Except.map] at h
            exact Except.noConfusion h
          · simp only [hrec, Except.map] at h
            injection h with h
            rw [← h, List.map_cons, ih hrec]
            simp [List.range'_succ]
    · rw [if_neg h1] at h
      exact ih h

/-! Splitting an append at a separator character. -/

theorem append_sep_inj {sep : Char} : ∀ (a1 a2 b1 b2 : Str),
    (∀ c ∈ a1, c ≠ sep) → (∀ c ∈ a2, c ≠ sep) →
    a1 ++ sep :: b1 = a2 ++ sep :: b2 → a1 = a2 ∧ b1 = b2 := by
  intro a1
  induction a1 with
  | nil =>
    intro a2 b1 b2 _ h2 heq
    rcases a2 with - | ⟨x, a2t⟩
    · refine ⟨rfl, ?_⟩
      rw [List.nil_append, List.nil_append] at heq
      injection heq
    · rw [List.nil_append, List.cons_append] at heq
      injection heq with hx _
      exact absurd hx.symm (h2 x (by simp))
  | cons y a1t ih =>
    intro a2 b1 b2 h1 h2 heq
    rcases a2 with - | ⟨x, a2t⟩
    · rw [List.nil_append, List.cons_append] at heq
      injection heq with hx _
      exact absurd hx (h1 y (by simp))
    · rw [List.cons_append, List.cons_append] at heq
      injection heq with hx hrest
      obtain ⟨ha, hb⟩ := ih a2t b1 b2 (fun c hc => h1 c (by simp [hc]))
        (fun c hc => h2 c (by simp [hc])) hrest
      exact ⟨by rw [hx, ha], hb⟩

/-! The claims. -/

/-- C1: season-number extraction succeeds exactly when the folder name
contains exactly one maximal digit run, returning that run's integer value;
with zero digit runs it fails with the no-numbers error, and with more than
one digit run it fails with the multiple-numbers error listing the runs. -/
theorem c1_season_number_extraction (name : Str) :
    (∀ r, digitRuns name = [r] → getSeasonNumber name = .ok (digitsVal r)) ∧
    (digitRuns name = [] → getSeasonNumber name = .error (.noNumbers name)) ∧
    (2 ≤ (digitRuns name).length →
      getSeasonNumber name = .error (.multipleNumbers name (digitRuns name))) := by
  refine ⟨?_, ?_, ?_⟩
  · intro r hr
    rw [getSeasonNumber, seasonRegex_of_single hr]
  · intro h0
    rw [getSeasonNumber, seasonRegex_of_nil h0]
    show (if 1 < (digitRuns name).length then
        Except.error (Err.multipleNumbers name (digitRuns name))
      else Except.error (Err.noNumbers name)) = Except.error (Err.noNumbers name)
    rw [if_neg (by rw [h0]; simp)]
  · intro h2
    rw [getSeasonNumber, seasonRegex_of_multi h2]
    show (if 1 < (digitRuns name).length then
        Except.error (Err.multipleNumbers name (digitRuns name))
      else Except.error (Err.noNumbers name))
      = Except.error (Err.multipleNumbers name (digitRuns name))
    rw [if_pos (by omega)]

/-- Witness for C1 at the folder name "Season 1". -/
theorem c1_season_number_extraction_witness :
    digitRuns ['S', 'e', 'a', 's', 'o', 'n', ' ', '1'] = [['1']] ∧
    getSeasonNumber ['S', 'e', 'a', 's', 'o', 'n', ' ', '1'] = .ok (digitsVal ['1']) :=
  ⟨by decide, (c1_season_number_extraction _).1 ['1'] (by decide)⟩

/-- C2: for non-empty season-number and per-season episode-count lists, the
two zero-padding widths both equal `max 2 (digit count of the largest
value)`, computed independently over the two lists (whose maxima are the
respective largest values). -/
theorem c2_padding_width (seasonNums episodeCounts : List Nat)
    (h1 : seasonNums ≠ []) (h2 : episodeCounts ≠ []) :
    (seasonPadWidth seasonNums = max 2 (numDigits (listMax seasonNums))
      ∧ listMax seasonNums ∈ seasonNums
      ∧ ∀ x ∈ seasonNums, x ≤ listMax seasonNums) ∧
    (episodePadWidth episodeCounts = max 2 (numDigits (listMax episodeCounts))
      ∧ listMax episodeCounts ∈ episodeCounts
      ∧ ∀ x ∈ episodeCounts, x ≤ listMax episodeCounts) :=
  ⟨⟨seasonPadWidth_eq _, listMax_mem h1, fun _ hx => le_listMax hx⟩,
   ⟨episodePadWidth_eq _, listMax_mem h2, fun _ hx => le_listMax hx⟩⟩

/-- Witness for C2 at the singleton lists `[9]` and `[111]`. -/
theorem c2_padding_width_witness :
    (([9] : List Nat) ≠ [] ∧ ([111] : List Nat) ≠ []) ∧
    ((seasonPadWidth [9] = max 2 (numDigits (listMax [9]))
        ∧ listMax [9] ∈ ([9] : List Nat)
        ∧ ∀ x ∈ ([9] : List Nat), x ≤ listMax [9])
      ∧ (episodePadWidth [111] = max 2 (numDigits (listMax [111]))
        ∧ listMax [111] ∈ ([111] : List Nat)
        ∧ ∀ x ∈ ([111] : List Nat), x ≤ listMax [111])) :=
  ⟨⟨by decide, by decide⟩, c2_padding_width [9] [111] (by decide) (by decide)⟩

/-- C3 counterexample: for the raw scheme ".." (dots only) no filename is
computed at all: stripping the trailing dots raises IndexError, refuting
the claim's universal quantification over every scheme prefix. -/
theorem c3_counterexample :
    mainNewName ['.', '.'] 2 2 1 2 ['m', 'k', 'v'] = .error .indexError := by
  decide

/-- C3 (amended): for every raw scheme containing at least one non-dot
character, the computed new filename is
`<prefix>.S<season>E<episode>.<extension>`, where the prefix is the scheme
with all trailing dots stripped and the numbers are zero-padded to the
given widths. -/
theorem c3_new_filename (rawScheme : Str) (c : Char) (hc : c ∈ rawScheme)
    (hcd : c ≠ '.') (wS wE sNum eNum : Nat) (ext : Str) :
    mainNewName rawScheme wS wE sNum eNum ext
      = .ok (specStripEnd rawScheme '.'
          ++ '.' :: 'S' :: (padNum wS sNum ++ 'E' :: (padNum wE eNum ++ '.' :: ext))) := by
  rw [mainNewName, removeEndChars_ok c hc hcd]
  rfl

/-- Witness for C3 at the raw scheme "Show..". -/
theorem c3_new_filename_witness :
    ('w' ∈ (['S', 'h', 'o', 'w', '.', '.'] : Str) ∧ 'w' ≠ '.') ∧
    mainNewName ['S', 'h', 'o', 'w', '.', '.'] 2 2 1 2 ['m', 'k', 'v']
      = .ok (specStripEnd ['S', 'h', 'o', 'w', '.', '.'] '.'
          ++ '.' :: 'S' :: (padNum 2 1 ++ 'E' :: (padNum 2 2 ++ '.' :: ['m', 'k', 'v']))) :=
  ⟨⟨by decide, by decide⟩,
    c3_new_filename ['S', 'h', 'o', 'w', '.', '.'] 'w' (by decide) (by decide) 2 2 1 2
      ['m', 'k', 'v']⟩

/-- C4 counterexample: "file." contains a dot, yet extension extraction
raises instead of returning the (empty) substring after the final dot. -/
theorem c4_counterexample :
    '.' ∈ (['f', 'i', 'l', 'e', '.'] : Str) ∧
    getExtension ['f', 'i', 'l', 'e', '.']
      = .error (.noExtension ['f', 'i', 'l', 'e', '.']) :=
  ⟨by decide, by decide⟩

/-- C4 (amended): extension extraction returns the substring after the
final dot exactly when that substring is nonempty: it succeeds on every
filename of the form `pre ++ "." ++ ext` with `ext` nonempty and dot-free,
and fails with the no-extension error when the filename has no dot, and
also when the filename ends in a dot. -/
theorem c4_extension_extraction (filename : Str) :
    (∀ pre ext, filename = pre ++ '.' :: ext → ext ≠ [] → ('.' ∉ ext) →
      getExtension filename = .ok ext) ∧
    ('.' ∉ filename → getExtension filename = .error (.noExtension filename)) ∧
    (∀ pre, filename = pre ++ ['.'] →
      getExtension filename = .error (.noExtension filename)) := by
  refine ⟨?_, ?_, ?_⟩
  · intro pre ext hdec hne hnd
    rw [hdec]
    exact getExtension_ok hne (fun c hc heq => hnd (heq ▸ hc))
  · exact getExtension_no_dot
  · intro pre hdec
    rw [hdec]
    exact getExtension_ends_dot pre

/-- Witness for C4 at the filename "a.b.mkv". -/
theorem c4_extension_extraction_witness :
    (['a', '.', 'b', '.', 'm', 'k', 'v'] : Str)
        = ['a', '.', 'b'] ++ '.' :: ['m', 'k', 'v'] ∧
    getExtension ['a', '.', 'b', '.', 'm', 'k', 'v'] = .ok ['m', 'k', 'v'] :=
  ⟨by decide,
    (c4_extension_extraction _).1 ['a', '.', 'b'] ['m', 'k', 'v']
      (by decide) (by decide) (by decide)⟩

/-- C5: filesystem renames are performed exactly when the execute flag is
set and the single confirmation line matches "yes" case-insensitively; any
other run leaves the filesystem untouched. -/
theorem c5_execution_gate (path0 scheme0 : Str) (listing : List DirEntry)
    (ig nm : List Str) (execute : Bool) (response : Str) (fs : FS) :
    (¬(execute = true ∧ respYes response = true) →
      (runMain path0 scheme0 listing ig nm execute response fs).1 = fs) ∧
    (execute = true → respYes response = true →
      ∀ acts, mainActions path0 scheme0 listing ig nm = .ok acts →
        (runMain path0 scheme0 listing ig nm execute response fs).1
          = (applyRenames fs acts).1) := by
  constructor
  · intro hno
    rcases hma : mainActions path0 scheme0 listing ig nm with e | acts
    · rw [runMain_error hma]
    · rw [runMain]
      simp only [hma]
      by_cases he : execute = true
      · by_cases hry : respYes response = true
        · exact absurd ⟨he, hry⟩ hno
        · have hr : respYes response = false := by simpa using hry
          rw [if_pos he, if_neg (by simp [hr])]
      · rw [if_neg he]
  · intro he hr acts hma
    rw [runMain]
    simp only [hma]
    rw [if_pos he, if_pos hr]
    rcases har : applyRenames fs acts with ⟨fs2, oe⟩
    rcases oe with - | e
    · rfl
    · rfl

/-- Witness for C5: a run without the execute flag leaves the filesystem
unchanged. -/
theorem c5_execution_gate_witness :
    ¬((false : Bool) = true ∧ respYes ['n', 'o'] = true) ∧
    (runMain ['/', 'r'] ['S', 'h', 'o', 'w']
        [DirEntry.mk ['S', '1'] true [FileEntry.mk ['a', '.', 'm', 'k', 'v'] true]]
        [] [] false ['n', 'o'] [['x']]).1 = [['x']] :=
  ⟨by decide,
    (c5_execution_gate ['/', 'r'] ['S', 'h', 'o', 'w']
        [DirEntry.mk ['S', '1'] true [FileEntry.mk ['a', '.', 'm', 'k', 'v'] true]]
        [] [] false ['n', 'o'] [['x']]).1 (by decide)⟩

/-- C6: when every discovered season lists its episode files without error
and at least one season has zero eligible episode files, the whole run
aborts with an empty-season error before any rename: the filesystem is
returned untouched, even when other seasons are non-empty. -/
theorem c6_empty_season_aborts (path0 scheme0 rootPath scheme : Str)
    (listing : List DirEntry) (ig nm : List Str) (sds0 : List SeasonDir)
    (h1 : removeEndChars path0 '/' = .ok rootPath)
    (h2 : removeEndChars scheme0 '.' = .ok scheme)
    (h3 : mapExcept (fun d => (getSeasonNumber d.name).map
        (fun n => SeasonDir.mk n (joinSlash rootPath d.name) d.files))
        (listing.filter (fun d => d.isDir && !ig.contains d.name)) = .ok sds0)
    (hall : ∀ sd ∈ sds0, ∃ l, getEpisodeFiles sd.path ig nm sd.entries = .ok l)
    (hemp : ∃ sd ∈ sds0, getEpisodeFiles sd.path ig nm sd.entries = .ok []) :
    (∃ p, mainActions path0 scheme0 listing ig nm = .error (.emptySeason p)) ∧
    ∀ (execute : Bool) (response : Str) (fs : FS), ∃ p,
      runMain path0 scheme0 listing ig nm execute response fs
        = (fs, .error (.emptySeason p)) := by
  have hne : sds0 ≠ [] := by
    obtain ⟨sd, hsd, -⟩ := hemp
    intro h
    rw [h] at hsd
    simp at hsd
  have hall2 : ∀ sd ∈ sortBy SeasonDir.num sds0, ∃ l,
      getEpisodeFiles sd.path ig nm sd.entries = .ok l :=
    fun sd hsd => hall sd ((mem_sortBy SeasonDir.num).1 hsd)
  obtain ⟨epLists, h4⟩ := mapExcept_ok_of_all hall2
  have hmain := mainActions_eq_compile h1 h2 h3 hne h4
  have hemp2 : ∃ sd ∈ sortBy SeasonDir.num sds0,
      getEpisodeFiles sd.path ig nm sd.entries = .ok [] := by
    obtain ⟨sd, hsd, hok⟩ := hemp
    exact ⟨sd, (mem_sortBy SeasonDir.num).2 hsd, hok⟩
  obtain ⟨p, hp⟩ := compileActions_empty _ hall2 hemp2
  have hfirst : ∃ p2, mainActions path0 scheme0 listing ig nm
      = .error (.emptySeason p2) := ⟨p, by rw [hmain, hp]⟩
  refine ⟨hfirst, ?_⟩
  intro execute response fs
  obtain ⟨p2, hp2⟩ := hfirst
  exact ⟨p2, runMain_error hp2⟩

/-- Witness for C6: one season folder containing only "i.nfo" (an ignored
extension) makes the run abort with an empty-season error. -/
theorem c6_empty_season_aborts_witness :
    ∃ p, mainActions ['/', 'r'] ['S', 'h', 'o', 'w']
        [DirEntry.mk ['S', '1'] true [FileEntry.mk ['i', '.', 'n', 'f', 'o'] true]]
        [] [['n', 'f', 'o']]
      = .error (.emptySeason p) :=
  (c6_empty_season_aborts ['/', 'r'] ['S', 'h', 'o', 'w'] ['/', 'r'] ['S', 'h', 'o', 'w']
    [DirEntry.mk ['S', '1'] true [FileEntry.mk ['i', '.', 'n', 'f', 'o'] true]]
    [] [['n', 'f', 'o']]
    [SeasonDir.mk 1 ['/', 'r', '/', 'S', '1'] [FileEntry.mk ['i', '.', 'n', 'f', 'o'] true]]
    (by decide) (by decide) (by decide)
    (by
      intro sd hsd
      rw [List.mem_singleton] at hsd
      subst hsd
      exact ⟨[], by decide⟩)
    ⟨SeasonDir.mk 1 ['/', 'r', '/', 'S', '1'] [FileEntry.mk ['i', '.', 'n', 'f', 'o'] true],
      by decide, by decide⟩).1

/-- C7: renames run sequentially in order; if a rename fails, the earlier
renames stay applied (no rollback), the failure is surfaced, and the later
actions are never attempted — the batch is not atomic. -/
theorem c7_no_rollback (fs fs2 : FS) (pre post : List RenameAction)
    (a : RenameAction) (e : Err)
    (hpre : applyRenames fs pre = (fs2, none))
    (hfail : osRename fs2 a = .error e) :
    applyRenames fs (pre ++ a :: post) = (fs2, some e) := by
  induction pre generalizing fs with
  | nil =>
    rw [applyRenames] at hpre
    injection hpre with hfs _
    subst hfs
    rw [List.nil_append, applyRenames]
    simp only [hfail]
  | cons b pret ih =>
    rw [applyRenames] at hpre
    rcases hb : osRename fs b with e2 | fs3
    · simp only [hb] at hpre
      injection hpre with _ hcontra
      exact Option.noConfusion hcontra
    · simp only [hb] at hpre
      rw [List.cons_append, applyRenames]
      simp only [hb]
      exact ih fs3 hpre

/-- Witness for C7: two renames where the second fails — the first stays
applied, the error is surfaced, and the third action is never attempted. -/
theorem c7_no_rollback_witness :
    applyRenames [['a']] [RenameAction.mk ['a'] ['b']] = ([['b']], none) ∧
    osRename [['b']] (RenameAction.mk ['c'] ['d']) = .error (.renameFailed ['c']) ∧
    applyRenames [['a']]
        ([RenameAction.mk ['a'] ['b']]
          ++ RenameAction.mk ['c'] ['d'] :: [RenameAction.mk ['b'] ['z']])
      = ([['b']], some (.renameFailed ['c'])) :=
  ⟨by decide, by decide,
    c7_no_rollback [['a']] [['b']] [RenameAction.mk ['a'] ['b']]
      [RenameAction.mk ['b'] ['z']] (RenameAction.mk ['c'] ['d'])
      (.renameFailed ['c']) (by decide) (by decide)⟩

/-- C8: discovered seasons come out sorted ascending by parsed season
number — a stable sort over the construction (directory-listing) order —
while the files inside a season are not sorted: the episodes keep raw
listing order and receive consecutive 1-based numbers. -/
theorem c8_ordering (showPath : Str) (listing : List DirEntry)
    (ig nm : List Str) (us : List SeasonRec)
    (hus : tvBuildSeasons showPath ig nm listing = .ok us)
    (seasonPath : Str) (entries : List FileEntry) (es : List EpisodeRec)
    (hes : tvGetEpisodes seasonPath ig nm 1 entries = .ok es) :
    tvGetSeasons showPath ig nm listing = .ok (sortBy SeasonRec.number us) ∧
    (sortBy SeasonRec.number us).Pairwise (fun a b => a.number ≤ b.number) ∧
    (∀ k, (sortBy SeasonRec.number us).filter (fun s => s.number == k)
        = us.filter (fun s => s.number == k)) ∧
    es.map EpisodeRec.oldName
      = (entries.filter (eligibleFile seasonPath ig nm)).map FileEntry.name ∧
    es.map EpisodeRec.number = List.range' 1 es.length := by
  refine ⟨?_, sortBy_sorted us, ?_, tvGetEpisodes_names hes, tvGetEpisodes_numbers hes⟩
  · rw [tvGetSeasons, hus]
    rfl
  · intro k
    exact sortBy_filter SeasonRec.number k us

/-- Witness for C8: two season folders listed out of order and one episode
listing with an ignored file. -/
theorem c8_ordering_witness :
    tvBuildSeasons ['/', 'r'] [] [['n', 'f', 'o']]
        [DirEntry.mk ['S', '2'] true [FileEntry.mk ['b', '.', 'm', 'k', 'v'] true],
         DirEntry.mk ['S', '1'] true [FileEntry.mk ['a', '.', 'm', 'k', 'v'] true]]
      = .ok [SeasonRec.mk 2 ['S', '2'] [EpisodeRec.mk 1 ['b', '.', 'm', 'k', 'v']],
             SeasonRec.mk 1 ['S', '1'] [EpisodeRec.mk 1 ['a', '.', 'm', 'k', 'v']]] ∧
    tvGetSeasons ['/', 'r'] [] [['n', 'f', 'o']]
        [DirEntry.mk ['S', '2'] true [FileEntry.mk ['b', '.', 'm', 'k', 'v'] true],
         DirEntry.mk ['S', '1'] true [FileEntry.mk ['a', '.', 'm', 'k', 'v'] true]]
      = .ok (sortBy SeasonRec.number
          [SeasonRec.mk 2 ['S', '2'] [EpisodeRec.mk 1 ['b', '.', 'm', 'k', 'v']],
           SeasonRec.mk 1 ['S', '1'] [EpisodeRec.mk 1 ['a', '.', 'm', 'k', 'v']]]) :=
  ⟨by decide,
    (c8_ordering ['/', 'r']
      [DirEntry.mk ['S', '2'] true [FileEntry.mk ['b', '.', 'm', 'k', 'v'] true],
       DirEntry.mk ['S', '1'] true [FileEntry.mk ['a', '.', 'm', 'k', 'v'] true]]
      [] [['n', 'f', 'o']]
      [SeasonRec.mk 2 ['S', '2'] [EpisodeRec.mk 1 ['b', '.', 'm', 'k', 'v']],
       SeasonRec.mk 1 ['S', '1'] [EpisodeRec.mk 1 ['a', '.', 'm', 'k', 'v']]]
      (by decide)
      ['/', 'r', '/', 'S', '1'] [FileEntry.mk ['a', '.', 'm', 'k', 'v'] true]
      [EpisodeRec.mk 1 ['a', '.', 'm', 'k', 'v']] (by decide)).1⟩

/-- C9: holding scheme prefix, extension and the two padding widths fixed,
the name formatter is deterministic (it is a function) and injective in the
(season, episode) pair. -/
theorem c9_formatName_injective (scheme ext : Str) (wS wE : Nat)
    (s1 e1 s2 e2 : Nat)
    (h : formatName scheme wS wE s1 e1 ext = formatName scheme wS wE s2 e2 ext) :
    s1 = s2 ∧ e1 = e2 := by
  have hdE : ∀ (w n : Nat), ∀ c ∈ padNum w n, c ≠ 'E' := by
    intro w n c hc heq
    have hdig := padNum_isDigit c hc
    rw [heq] at hdig
    exact absurd hdig (by decide)
  have hdDot : ∀ (w n : Nat), ∀ c ∈ padNum w n, c ≠ '.' := by
    intro w n c hc heq
    have hdig := padNum_isDigit c hc
    rw [heq] at hdig
    exact absurd hdig (by decide)
  rw [formatName, formatName] at h
  have h2 := List.append_cancel_left h
  injection h2 with h5 h3
  injection h3 with h6 h4
  obtain ⟨hs, hrest⟩ := append_sep_inj _ _ _ _ (hdE wS s1) (hdE wS s2) h4
  obtain ⟨he, -⟩ := append_sep_inj _ _ _ _ (hdDot wE e1) (hdDot wE e2) hrest
  exact ⟨padNum_inj hs, padNum_inj he⟩

/-- Witness for C9 (the hypothesis instantiated reflexively). -/
theorem c9_formatName_injective_witness : (3 : Nat) = 3 ∧ (4 : Nat) = 4 :=
  c9_formatName_injective ['s'] ['m', 'k', 'v'] 2 2 3 4 3 4 rfl

/-- C10: `remove_end_chars` is not total: on any input that is empty or
consists entirely of the stripped character it indexes `text[-1]` on the
empty string and raises IndexError instead of returning the empty string,
and `main`'s path normalization (a caller) propagates that crash. -/
theorem c10_removeEndChars_crash (text : Str) (ch : Char)
    (h : ∀ c ∈ text, c = ch) :
    removeEndChars text ch = .error .indexError ∧
    (ch = '/' → ∀ (scheme0 : Str) (listing : List DirEntry) (ig nm : List Str),
      mainActions text scheme0 listing ig nm = .error .indexError) := by
  have herr := removeEndChars_error h
  refine ⟨herr, ?_⟩
  rintro rfl scheme0 listing ig nm
  rw [mainActions]
  simp only [herr]

/-- Witness for C10 at the all-dots input "..". -/
theorem c10_removeEndChars_crash_witness :
    (∀ c ∈ (['.', '.'] : Str), c = '.') ∧
    (removeEndChars ['.', '.'] '.' = .error .indexError ∧
      ('.' = '/' → ∀ (scheme0 : Str) (listing : List DirEntry) (ig nm : List Str),
        mainActions ['.', '.'] scheme0 listing ig nm = .error .indexError)) :=
  ⟨by decide, c10_removeEndChars_crash ['.', '.'] '.' (by decide)⟩

end RenameEpisodes
